import Mathlib

/-!
Verification of the node lineage tree model of the dazzign backend.

The development shallowly embeds the persisted `Node` entity
(`app/models/node.py`, identical in shape to `app/models/image_node.py`)
and the service-layer operations over it:

* `create_node`        — `NodeService.create_node`
* `get_node`           — `NodeService.get_node` / `ImageService.get_image`
* `get_image_lineage`  — `ImageService.get_image_lineage` (the Lineage Resolver)
* `get_node_tree`      — `NodeService.get_node_tree` (the Tree Materializer),
  with the recursive CTE modelled as an iterated frontier expansion and the
  row-to-tree reassembly (`build_tree`) modelled with an explicit fuel
  parameter standing for the unbounded Python recursion
* `get_root_nodes`     — `NodeService.get_root_nodes` (Root Pagination)
* the two prompt composers
  (`TextGenService._create_structured_prompt`,
   `ImageGenService.create_structured_prompt`)
* `generate_image` / the `/image-gen/generate` endpoint flow
  (`ImageGenService.generate_image`, `app/api/endpoints/image_gen_endpoints.py`),
  with the external image providers modelled as opaque call outcomes.

The persistent store is modelled as the list of rows of the `nodes` table in
insertion order.  Timestamps are naturals.  SQL `NULL` is `Option.none`.
-/

/-- Transient structured attribute value object
(`app/schemas/common/design_attributes.py`): every category is a list of
free-text strings defaulting to the empty list. -/
structure PCCaseAttributes where
  shape : List String := []
  style : List String := []
  color : List String := []
  material : List String := []
  ventilation : List String := []
  lighting : List String := []
  features : List String := []
  environment : List String := []
deriving DecidableEq, Repr

/-- The competing attribute schema used by the text generation service
(`app/schemas/text_gen/domain.py`): every category is `Optional[List[str]]`
defaulting to `None`, and there is no `environment` field. -/
structure PCCaseAttributesTextGen where
  color : Option (List String) := none
  style : Option (List String) := none
  shape : Option (List String) := none
  material : Option (List String) := none
  ventilation : Option (List String) := none
  lighting : Option (List String) := none
  features : Option (List String) := none
deriving DecidableEq, Repr

/-- Persisted `Node` row (`app/models/node.py`).  `request_params` is kept as
the pair the generate endpoint actually stores (structured prompt and
negative prompt); its contents are never inspected by the core. -/
structure Node where
  id : Nat
  is_root : Bool
  parent_id : Option Nat
  prompt : String
  negative_prompt : Option String
  spec_json : Option PCCaseAttributes
  request_params : Option (String × String)
  image_base64 : Option String
  image_path : Option String
  action_type : String
  created_at : Nat
deriving DecidableEq, Repr

/-- The `nodes` table: rows in insertion (id-assignment) order. -/
abbrev Store := List Node

/-- Point lookup `SELECT * FROM nodes WHERE id = :id` returning the first row
(`NodeService.get_node`, `ImageService.get_image`). -/
def get_node (s : Store) (node_id : Nat) : Option Node :=
  s.find? (fun n => n.id == node_id)

/-- Rows whose `parent_id` equals the given id
(`SELECT * FROM nodes WHERE parent_id = :id`). -/
def children_rows (s : Store) (pid : Nat) : List Node :=
  s.filter (fun n => n.parent_id == some pid)

/-- Caller-supplied draft for node creation
(`app/schemas/node/base.py` `NodeBase` plus `NodeCreate`). -/
structure NodeCreate where
  prompt : String
  negative_prompt : Option String := none
  spec_json : Option PCCaseAttributes := none
  action_type : String := "generate"
  is_root : Bool := false
  parent_id : Option Nat := none
  request_params : Option (String × String) := none
  image_base64 : Option String := none
  image_path : Option String := none
deriving DecidableEq, Repr

/-- The database sequence: ids are assigned monotonically, one above every id
already present. -/
def next_id (s : Store) : Nat :=
  s.foldr (fun n acc => max n.id acc) 0 + 1

/-- Embeds `NodeService.create_node`: when the draft carries no `parent_id`
the draft's `is_root` is overwritten with `True`, then a row is inserted with
the draft's fields, a fresh id and the server-assigned timestamp `now`.
`image_path` is not passed to the `Node` constructor in the source, so it is
always `NULL` on creation. -/
def create_node (s : Store) (data : NodeCreate) (now : Nat) : Store × Node :=
  let data := if data.parent_id = none then { data with is_root := true } else data
  let node : Node :=
    { id := next_id s
      is_root := data.is_root
      parent_id := data.parent_id
      prompt := data.prompt
      negative_prompt := data.negative_prompt
      spec_json := data.spec_json
      request_params := data.request_params
      image_base64 := data.image_base64
      image_path := none
      action_type := data.action_type
      created_at := now }
  (s ++ [node], node)

/-- Lineage result value (`NodeLineage` / `ImageLineage` schema): both lists
default to empty. -/
structure NodeLineage where
  ancestors : List Node := []
  descendants : List Node := []
deriving DecidableEq, Repr

/-- Embeds the ancestor `while` loop of `ImageService.get_image_lineage`:
starting from a `parent_id` link, repeatedly look the parent row up and
follow its own `parent_id`, collecting the rows met, nearest first.  The
Python loop is unbounded; `fuel` indexes its finite approximations (the loop
body runs at most `fuel` times). -/
def walk_up (s : Store) : Nat → Option Nat → List Node
  | 0, _ => []
  | _ + 1, none => []
  | fuel + 1, some pid =>
    match get_node s pid with
    | none => []
    | some p => p :: walk_up s fuel p.parent_id

/-- Embeds `ImageService.get_image_lineage`.  A missing id yields the empty
lineage (soft fail).  Otherwise the ancestors are the upward walk from the
node's `parent_id` and the descendants are the direct children followed by
each direct child's children — a two-hop expansion, not the full subtree. -/
def get_image_lineage (s : Store) (fuel : Nat) (image_id : Nat) : NodeLineage :=
  match get_node s image_id with
  | none => {}
  | some image =>
    let ancestors := walk_up s fuel image.parent_id
    let descendants := children_rows s image_id
    let all_descendants := descendants ++ descendants.flatMap (fun d => children_rows s d.id)
    { ancestors := ancestors, descendants := all_descendants }

/-- Descending order on `created_at` used by `ORDER BY created_at DESC`. -/
def created_desc (a b : Node) : Prop := b.created_at ≤ a.created_at

instance : DecidableRel created_desc := fun a b => Nat.decLe b.created_at a.created_at

instance : IsTotal Node created_desc := ⟨fun a b => Nat.le_total b.created_at a.created_at⟩

instance : IsTrans Node created_desc := ⟨fun _ _ _ h1 h2 => Nat.le_trans h2 h1⟩

/-- Embeds `NodeService.get_root_nodes`: count the rows with `is_root`, then
return the window `OFFSET (page-1)*page_size LIMIT page_size` of the same
rows ordered by `created_at` descending.  SQL fixes no order among ties nor a
sorting algorithm; a stable sort models it.  For `page ≥ 1` the truncated
subtraction agrees with the source's integer arithmetic. -/
def get_root_nodes (s : Store) (page : Nat) (page_size : Nat) : List Node × Nat :=
  let matching := s.filter (fun n => n.is_root)
  let total := matching.length
  let ordered := List.insertionSort created_desc matching
  (((ordered.drop ((page - 1) * page_size)).take page_size), total)

/-- Nested tree returned by the Tree Materializer (`NodeWithChildren`): a
node together with an ordered list of child subtrees. -/
inductive NodeTree where
  | mk (node : Node) (children : List NodeTree)
deriving Repr

/-- Root row of a tree. -/
def NodeTree.node : NodeTree → Node
  | .mk n _ => n

/-- Child subtrees of a tree. -/
def NodeTree.children : NodeTree → List NodeTree
  | .mk _ c => c

mutual

/-- Preorder flattening of a tree into its rows. -/
def tree_flat : NodeTree → List Node
  | .mk n cs => n :: tree_flat_list cs

/-- Preorder flattening of a forest. -/
def tree_flat_list : List NodeTree → List Node
  | [] => []
  | t :: ts => tree_flat t ++ tree_flat_list ts

end

/-- One round of the recursive CTE of `NodeService.get_node_tree`: the rows
of `s` whose `parent_id` joins an id of the working frontier. -/
def cte_step (s : Store) (frontier : List Node) : List Node :=
  frontier.flatMap (fun d => children_rows s d.id)

/-- Iteration of the recursive CTE: every frontier produced is appended to
the result (`UNION ALL`).  The SQL engine iterates until a frontier is empty;
`fuel` bounds the number of rounds, and once a frontier is empty all later
rounds contribute nothing, so any sufficiently large fuel yields the
fixpoint. -/
def cte_aux (s : Store) : Nat → List Node → List Node
  | 0, _ => []
  | fuel + 1, frontier => frontier ++ cte_aux s fuel (cte_step s frontier)

/-- Row set of the recursive CTE `WITH RECURSIVE descendants AS (...)`
anchored at `node_id`: the anchor row plus every transitive descendant.
`s.length + 1` rounds are enough on a well-formed store (proved below). -/
def cte_descendants (s : Store) (node_id : Nat) : List Node :=
  cte_aux s (s.length + 1) (s.filter (fun n => n.id == node_id))

/-- Working table of the recursive CTE after `k` expansion rounds: round 0
is the anchor selection, and each later round joins the previous one with
the `nodes` table on `parent_id`. -/
def cte_frontier (s : Store) (x : Nat) : Nat → List Node
  | 0 => s.filter (fun n => n.id == x)
  | k + 1 => cte_step s (cte_frontier s x k)

/-- Embeds the inner `build_tree(nodes, parent_id)` closure of
`NodeService.get_node_tree`: scan the fetched rows for those whose
`parent_id` matches, and attach to each the recursively built subtrees of its
own id.  The Python recursion carries no bound; `fuel` indexes its finite
approximations. -/
def build_tree (rows : List Node) : Nat → Nat → List NodeTree
  | 0, _ => []
  | fuel + 1, pid =>
    (rows.filter (fun n => n.parent_id == some pid)).map
      (fun n => NodeTree.mk n (build_tree rows fuel n.id))

/-- Embeds `NodeService.get_node_tree`: check existence, fetch the anchor row
and all transitive descendants with the recursive CTE, then reassemble the
flat row set into a nested tree rooted at the queried row.  The inner `none`
branch models the `StopIteration` of `next(...)`; it is unreachable once the
existence check has passed, because the CTE always returns its anchor row.
The fuel `rows.length + 1` exceeds the depth of any acyclic row set, so the
approximation agrees with the unbounded recursion (proved below). -/
def get_node_tree (s : Store) (node_id : Nat) : Option NodeTree :=
  match get_node s node_id with
  | none => none
  | some _ =>
    let rows := cte_descendants s node_id
    match rows.find? (fun n => n.id == node_id) with
    | none => none
    | some root => some (NodeTree.mk root (build_tree rows (rows.length + 1) node_id))

/-- Python truthiness of an `Optional[List[str]]` field: `None` and the empty
list are falsy. -/
def truthy : Option (List String) → Bool
  | none => false
  | some l => !l.isEmpty

/-- Values of an optional category (the empty list when absent). -/
def vals : Option (List String) → List String
  | none => []
  | some l => l

/-- Joins category values with the literal word `and`
(`' and '.join(...)`). -/
def join_and (l : List String) : String :=
  String.intercalate " and " l

/-- Embeds `TextGenService._create_structured_prompt`.  The function builds
the clause list of the attribute template, but its final step reads
`attributes.environment`, a field the `PCCaseAttributes` class of
`app/schemas/text_gen/domain.py` does not define, so the call raises
`AttributeError` instead of returning; the raise is modelled as
`Except.error`.  Had the access succeeded, the return value would have been
the clauses joined with `"; "` plus a final period.  The `original_prompt`
argument is never used by the source. -/
def textgen_create_structured_prompt (original_prompt : String)
    (attributes : PCCaseAttributesTextGen) : Except String String :=
  let parts : List String := ["A high-resolution render of"]
  let shape_desc :=
    if truthy attributes.shape then "a " ++ join_and (vals attributes.shape) ++ " PC case"
    else "a PC case"
  let parts :=
    if truthy attributes.style then
      parts ++ [shape_desc ++ " with a " ++ join_and (vals attributes.style) ++ " aesthetic"]
    else parts ++ [shape_desc]
  let parts :=
    if truthy attributes.material then parts ++ ["made of " ++ join_and (vals attributes.material)]
    else parts
  let parts :=
    if truthy attributes.ventilation then
      parts ++ ["featuring " ++ join_and (vals attributes.ventilation)]
    else parts
  let parts :=
    if truthy attributes.lighting then
      parts ++ ["illuminated by " ++ join_and (vals attributes.lighting)]
    else parts
  let parts :=
    if truthy attributes.features then
      parts ++ ["including " ++ join_and (vals attributes.features)]
    else parts
  let _ := String.intercalate "; " parts ++ "."
  Except.error "AttributeError"

/-- Minimal JSON string escaping as performed by `json.dumps` on the strings
occurring here (backslash and double quote; `ensure_ascii=False` leaves other
characters alone). -/
def json_escape (s : String) : String :=
  String.join (s.toList.map (fun c =>
    if c = '\\' then "\\\\" else if c = '"' then "\\\"" else String.singleton c))

/-- JSON rendering of a string. -/
def json_str (s : String) : String :=
  "\"" ++ json_escape s ++ "\""

/-- JSON rendering of a list of strings with the default `json.dumps`
separators. -/
def json_list (l : List String) : String :=
  "[" ++ String.intercalate ", " (l.map json_str) ++ "]"

/-- JSON rendering of `attributes.dict()`: all eight categories in field
declaration order. -/
def json_dumps_attrs (a : PCCaseAttributes) : String :=
  "\x7b" ++ String.intercalate ", "
    ([("shape", a.shape), ("style", a.style), ("color", a.color), ("material", a.material),
      ("ventilation", a.ventilation), ("lighting", a.lighting), ("features", a.features),
      ("environment", a.environment)].map
      (fun kv => json_str kv.1 ++ ": " ++ json_list kv.2)) ++ "\x7d"

/-- Embeds `ImageGenService.create_structured_prompt`: the attribute template
in its body is quoted out, and the live code returns the literal prefix
`"A computer case with "` followed by `json.dumps(attributes.dict())`. -/
def imagegen_create_structured_prompt (attributes : PCCaseAttributes) : String :=
  "A computer case with " ++ json_dumps_attrs attributes

/-- Image provider enumeration of `ImageGenService`. -/
inductive ImageProvider where
  | stability_ai
  | aws_bedrock
  | mock
deriving DecidableEq, Repr

/-- Process-wide configuration read from the environment by
`ImageGenService` and `BedrockImageGenerator.check_aws_credentials`. -/
structure GenEnv where
  use_fake_data : Bool
  image_provider : String
  aws_credentials : Bool
deriving Repr

/-- Mapping of the `IMAGE_PROVIDER` environment string to a provider
(anything unrecognised falls back to mock). -/
def resolve_default_provider (s : String) : ImageProvider :=
  if s.toLower = "stability_ai" then ImageProvider.stability_ai
  else if s.toLower = "aws_bedrock" then ImageProvider.aws_bedrock
  else ImageProvider.mock

/-- The fixed placeholder images of `ImageGenService._get_mock_image`.  The
source list literal is missing a comma after its second element, so two of
the four string literals concatenate and the list has three elements. -/
def mock_images : List String :=
  ["iVBORw0KGgoAAAANSUhEUgAAAAEAAAABCAYAAAAfFcSJAAAADUlEQVR42mP8z8BQDwAEhQGAhKmMIQAAAABJRU5ErkJggg==",
   "iVBORw0KGgoAAAANSUhEUgAAAAoAAAAKCAYAAACNMs+9AAAAFUlEQVR42mP8z8BQz0AEYBxVSF+FABJADveWkH6oAAAAAElFTkSuQmCC" ++
   "iVBORw0KGgoAAAANSUhEUgAAAAoAAAAKCAYAAACNMs+9AAAAFUlEQVR42mNk+M9Qz0AEYBxVSF+FAAhKDveksOjmAAAAAElFTkSuQmCC",
   "iVBORw0KGgoAAAANSUhEUgAAAAoAAAAKCAYAAACNMs+9AAAAFUlEQVR42mNkYPhfz0AEYBxVSF+FAP5FDvcfRYWgAAAAAElFTkSuQmCC"]

/-- Embeds `ImageGenService._get_mock_image`: `random.choice` over the fixed
list, with the random draw modelled as an index parameter. -/
def get_mock_image (k : Fin mock_images.length) : String :=
  mock_images.get k

/-- Embeds `ImageGenService.generate_image`.  The external provider calls are
modelled by their outcomes: `some img` when the call returns a result
carrying an `"image"` key, `none` when the provider raises or returns no
image (the source catches every exception and logs it).  `USE_FAKE_DATA`
forces the mock provider; an unspecified provider falls back to the
environment default; Bedrock without credentials falls back to mock; a
failed Stability or Bedrock call falls through to the mock image. -/
def generate_image (env : GenEnv) (provider? : Option ImageProvider)
    (stability_result bedrock_result : Option String) (k : Fin mock_images.length) : String :=
  let p0 := if env.use_fake_data then some ImageProvider.mock else provider?
  let p1 :=
    match p0 with
    | none => resolve_default_provider env.image_provider
    | some p => p
  let p2 :=
    if p1 = ImageProvider.aws_bedrock ∧ ¬env.aws_credentials then ImageProvider.mock else p1
  match p2 with
  | ImageProvider.stability_ai =>
    match stability_result with
    | some image => image
    | none => get_mock_image k
  | ImageProvider.aws_bedrock =>
    match bedrock_result with
    | some image => image
    | none => get_mock_image k
  | ImageProvider.mock => get_mock_image k

/-- Request body of `POST /image-gen/generate`
(`app/schemas/image_gen/request.py`). -/
structure GenerateImageRequest where
  prompt : String
  negative_prompt : Option String := none
  spec_json : PCCaseAttributes
  parent_id : Option Nat := none
  action_type : Option String := none
deriving Repr

/-- Embeds `ImageGenService.prepare_generation_data`: builds the node draft;
`action_type` is always the literal `"generate"` (the parameter is ignored by
the source) and `is_root` keeps its schema default `False`. -/
def prepare_generation_data (prompt : String) (negative_prompt : Option String)
    (spec_json : Option PCCaseAttributes) (parent_id : Option Nat) : NodeCreate :=
  { prompt := prompt
    negative_prompt := negative_prompt
    spec_json := spec_json
    parent_id := parent_id
    action_type := "generate" }

/-- Embeds the `/image-gen/generate` endpoint flow
(`app/api/endpoints/image_gen_endpoints.py`): prepare the draft, compose the
structured prompt, render through `generate_image` with the provider forced
to Stability AI, store both prompts as `request_params`, attach the rendered
image and persist the node. -/
def generate_endpoint (s : Store) (req : GenerateImageRequest) (env : GenEnv)
    (stability_result bedrock_result : Option String) (k : Fin mock_images.length)
    (now : Nat) : Store × Node :=
  let negative_prompt := "text, logo, watermark, signature, blurry, lowres, noisy, grainy"
  let image_data := prepare_generation_data req.prompt req.negative_prompt
    (some req.spec_json) req.parent_id
  let structured_prompt := imagegen_create_structured_prompt req.spec_json
  let image_data := { image_data with request_params := some (structured_prompt, negative_prompt) }
  let image_base64 := generate_image env (some ImageProvider.stability_ai)
    stability_result bedrock_result k
  let image_data := { image_data with image_base64 := some image_base64 }
  create_node s image_data now

/-- Per-row well-formedness: a non-null `parent_id` references an existing
row created earlier (so its id is strictly smaller). -/
def ParentOk (s : List Node) (n : Node) : Prop :=
  ∀ p, n.parent_id = some p → p < n.id ∧ ∃ m ∈ s, m.id = p

instance instDecidableParentOk (s : List Node) (n : Node) : Decidable (ParentOk s n) :=
  match h : n.parent_id with
  | none => isTrue (by intro p hp; rw [h] at hp; cases hp)
  | some q =>
    decidable_of_iff (q < n.id ∧ ∃ m ∈ s, m.id = q)
      (by
        constructor
        · intro hq p hp
          rw [h] at hp
          cases hp
          exact hq
        · intro hall
          exact hall q h)

/-- Store well-formedness guaranteed by construction in the source: ids are
unique, and every node's parent already existed (with a smaller id) when the
node was created, so the parent/child relation is a forest. -/
def WellFormedStore (s : Store) : Prop :=
  (s.map Node.id).Nodup ∧ ∀ n ∈ s, ParentOk s n

instance (s : Store) : Decidable (WellFormedStore s) := by
  unfold WellFormedStore
  infer_instance

/-- Formalises the spec's notion of a node sitting at descent level `k` below
an anchor row `x`: `DescendAt s x 0 x`, and a row of `s` whose `parent_id` is
the id of a node at level `k` is at level `k + 1`. -/
inductive DescendAt (s : Store) (x : Node) : Nat → Node → Prop
  | refl : DescendAt s x 0 x
  | step {k : Nat} {m n : Node} :
      DescendAt s x k m → n ∈ s → n.parent_id = some m.id → DescendAt s x (k + 1) n

/-- Formalises the spec's "transitive descendant of the node with id `pid`":
either a direct child, or a child of another transitive descendant. -/
inductive TransDesc (s : Store) (pid : Nat) : Node → Prop
  | base {n : Node} : n ∈ s → n.parent_id = some pid → TransDesc s pid n
  | step {m n : Node} : TransDesc s pid m → n ∈ s → n.parent_id = some m.id → TransDesc s pid n

/-- Formalises the spec's ancestor chain: starting from a `parent_id` link,
the chain lists the successive parent rows, nearest first, ending at a row
whose `parent_id` is null. -/
inductive AncestorChain (s : Store) : Option Nat → List Node → Prop
  | nil : AncestorChain s none []
  | cons {pid : Nat} {p : Node} {l : List Node} :
      get_node s pid = some p → AncestorChain s p.parent_id l →
      AncestorChain s (some pid) (p :: l)

/-- Well-parented trees: every child subtree's root row carries the id of the
row it hangs under.  This is the "attached to its true parent" property of
the reassembled tree. -/
inductive WellParented : NodeTree → Prop
  | mk {n : Node} {cs : List NodeTree} :
      (∀ c ∈ cs, (NodeTree.node c).parent_id = some n.id) →
      (∀ c ∈ cs, WellParented c) →
      WellParented (NodeTree.mk n cs)

/-- Shorthand for building demo rows: only id, root flag, parent link and
timestamp vary across the concrete stores used to instantiate theorems. -/
def mk_node (i : Nat) (root : Bool) (pid : Option Nat) (ts : Nat) : Node :=
  { id := i
    is_root := root
    parent_id := pid
    prompt := "p"
    negative_prompt := none
    spec_json := none
    request_params := none
    image_base64 := none
    image_path := none
    action_type := "generate"
    created_at := ts }

/-- Concrete well-formed store: root 1, its child 2, and 2's children 3 and
4. -/
def demo_store : Store :=
  [mk_node 1 true none 10, mk_node 2 false (some 1) 20,
   mk_node 3 false (some 2) 30, mk_node 4 false (some 2) 40]

/-- Store with a single root row, used to exhibit the `is_root` slip. -/
def c3_store : Store := [mk_node 1 true none 10]

/-- Draft naming the existing node 1 as parent while also claiming root
state. -/
def c3_draft : NodeCreate :=
  { prompt := "child", parent_id := some 1, is_root := true }

theorem get_node_mem {s : Store} {x : Nat} {n : Node} (h : get_node s x = some n) : n ∈ s :=
  List.mem_of_find?_eq_some h

theorem get_node_id {s : Store} {x : Nat} {n : Node} (h : get_node s x = some n) : n.id = x := by
  have := List.find?_some h
  simpa using this

theorem get_node_of_mem_id {s : Store} {x : Nat} (h : ∃ m ∈ s, m.id = x) :
    ∃ n, get_node s x = some n := by
  have hs : (s.find? (fun n => n.id == x)).isSome = true := by
    rw [List.find?_isSome]
    obtain ⟨m, hm, he⟩ := h
    exact ⟨m, hm, by simp [he]⟩
  cases hf : s.find? (fun n => n.id == x) with
  | none => rw [hf] at hs; cases hs
  | some n => exact ⟨n, hf⟩

theorem id_inj {s : Store} (hnd : (s.map Node.id).Nodup) {a b : Node}
    (ha : a ∈ s) (hb : b ∈ s) (hid : a.id = b.id) : a = b :=
  List.inj_on_of_nodup_map hnd ha hb hid

/-- Claim C3 (counterexample): on the store holding only root node 1, the
draft `c3_draft` names the existing node 1 as parent yet the created node
comes out with `is_root = true`, because `create_node` only ever forces the
flag in the null-parent direction and keeps the caller-supplied flag
otherwise. -/
theorem create_node_root_flag_counterexample :
    (∃ m ∈ c3_store, m.id = 1) ∧
    ((create_node c3_store c3_draft 5).2).parent_id = some 1 ∧
    ((create_node c3_store c3_draft 5).2).is_root = true := by decide

/-- Claim C3 (amended): a draft with `parent_id = null` yields
`is_root = true` regardless of the caller-supplied flag, while a draft with a
non-null `parent_id` keeps the caller-supplied `is_root` unchanged (so it is
`false` exactly when the caller left the schema default). -/
theorem create_node_root_flag (s : Store) (data : NodeCreate) (now : Nat) :
    (data.parent_id = none → ((create_node s data now).2).is_root = true) ∧
    (∀ p, data.parent_id = some p → ((create_node s data now).2).is_root = data.is_root) := by
  constructor
  · intro h
    simp [create_node, h]
  · intro p hp
    simp [create_node, hp]

theorem create_node_root_flag_witness :
    ((create_node c3_store { prompt := "r" } 0).2).is_root = true ∧
    ((create_node c3_store c3_draft 5).2).is_root = c3_draft.is_root :=
  ⟨(create_node_root_flag c3_store { prompt := "r" } 0).1 rfl,
   (create_node_root_flag c3_store c3_draft 5).2 1 rfl⟩

/-- Claim C4 (counterexample): neither composer yields the string
`"A high-resolution render of a PC case."` on the empty attribute set: the
text generation one raises `AttributeError` (its attribute schema lacks the
`environment` field it reads), and the image generation one returns the
JSON-dump form. -/
theorem compose_empty_counterexample :
    textgen_create_structured_prompt "" {} ≠
      Except.ok "A high-resolution render of a PC case." ∧
    imagegen_create_structured_prompt {} ≠
      "A high-resolution render of a PC case." := by
  constructor
  · intro h
    simp [textgen_create_structured_prompt] at h
  · decide

/-- Claim C4 (amended): on an attribute set with no categories present the
text generation composer raises `AttributeError` instead of returning a
string (and the clause list it builds before failing would join to
`"A high-resolution render of; a PC case."` — the clauses are
semicolon-joined, so even the intended template does not produce the claimed
string), while the live image generation composer returns the literal prefix
`"A computer case with "` followed by the JSON dump of the empty attribute
mapping. -/
theorem compose_empty_amended :
    textgen_create_structured_prompt "" {} = Except.error "AttributeError" ∧
    String.intercalate "; " ["A high-resolution render of", "a PC case"] ++ "." =
      "A high-resolution render of; a PC case." ∧
    imagegen_create_structured_prompt {} =
      "A computer case with \x7b\"shape\": [], \"style\": [], \"color\": [], \"material\": [], \"ventilation\": [], \"lighting\": [], \"features\": [], \"environment\": []\x7d" :=
  ⟨rfl, rfl, rfl⟩

/-- Claim C5: a node id absent from the store is a not-found result for
`get_node` and `get_node_tree`, while `get_image_lineage` soft-fails to the
empty lineage value. -/
theorem missing_id_soft_fail (s : Store) (x : Nat) (fuel : Nat)
    (h : ∀ n ∈ s, n.id ≠ x) :
    get_node s x = none ∧
    get_image_lineage s fuel x = { ancestors := [], descendants := [] } ∧
    get_node_tree s x = none := by
  have hn : get_node s x = none := by
    rw [get_node, List.find?_eq_none]
    intro n hmem
    simp [h n hmem]
  refine ⟨hn, ?_, ?_⟩
  · simp [get_image_lineage, hn]
  · simp [get_node_tree, hn]

theorem missing_id_soft_fail_witness :
    (∀ n ∈ demo_store, n.id ≠ 99) ∧
    (get_node demo_store 99 = none ∧
     get_image_lineage demo_store 4 99 = { ancestors := [], descendants := [] } ∧
     get_node_tree demo_store 99 = none) :=
  ⟨by decide, missing_id_soft_fail demo_store 99 4 (by decide)⟩

/-- Claim C6: root listing returns only `is_root` rows, sorted by
`created_at` descending, as the window of the ordered result that skips
`(page-1)*page_size` rows and takes at most `page_size`, and reports as
total the full count of root rows independent of the window. -/
theorem get_root_nodes_spec (s : Store) (page page_size : Nat)
    (hpage : 1 ≤ page) (hmin : 1 ≤ page_size) (hmax : page_size ≤ 100) :
    (∀ n ∈ (get_root_nodes s page page_size).1, n.is_root = true) ∧
    List.Sorted created_desc (get_root_nodes s page page_size).1 ∧
    (get_root_nodes s page page_size).1.length ≤ page_size ∧
    (get_root_nodes s page page_size).1 =
      ((List.insertionSort created_desc (s.filter (fun n => n.is_root))).drop
        ((page - 1) * page_size)).take page_size ∧
    (get_root_nodes s page page_size).2 = (s.filter (fun n => n.is_root)).length := by
  have hsub : (get_root_nodes s page page_size).1.Sublist
      (List.insertionSort created_desc (s.filter (fun n => n.is_root))) :=
    (List.take_sublist _ _).trans (List.drop_sublist _ _)
  refine ⟨?_, ?_, ?_, rfl, rfl⟩
  · intro n hn
    have h1 : n ∈ List.insertionSort created_desc (s.filter (fun n => n.is_root)) :=
      hsub.subset hn
    have h2 : n ∈ s.filter (fun n => n.is_root) :=
      (List.perm_insertionSort created_desc _).mem_iff.mp h1
    exact (List.mem_filter.mp h2).2
  · exact List.Pairwise.sublist hsub (List.sorted_insertionSort created_desc _)
  · exact List.length_take_le _ _

theorem get_root_nodes_spec_witness :
    (1 ≤ (1 : Nat) ∧ 1 ≤ (2 : Nat) ∧ (2 : Nat) ≤ 100) ∧
    ((∀ n ∈ (get_root_nodes demo_store 1 2).1, n.is_root = true) ∧
     List.Sorted created_desc (get_root_nodes demo_store 1 2).1 ∧
     (get_root_nodes demo_store 1 2).1.length ≤ 2 ∧
     (get_root_nodes demo_store 1 2).1 =
       ((List.insertionSort created_desc (demo_store.filter (fun n => n.is_root))).drop
         ((1 - 1) * 2)).take 2 ∧
     (get_root_nodes demo_store 1 2).2 = (demo_store.filter (fun n => n.is_root)).length) :=
  ⟨by decide, get_root_nodes_spec demo_store 1 2 (by decide) (by decide) (by decide)⟩

/-- Claim C9: when the window offset reaches or passes the number of root
rows the returned page is empty while the reported total is still the full
count of root rows. -/
theorem get_root_nodes_out_of_range (s : Store) (page page_size : Nat)
    (h : (s.filter (fun n => n.is_root)).length ≤ (page - 1) * page_size) :
    (get_root_nodes s page page_size).1 = [] ∧
    (get_root_nodes s page page_size).2 = (s.filter (fun n => n.is_root)).length := by
  refine ⟨?_, rfl⟩
  have hlen : (List.insertionSort created_desc (s.filter (fun n => n.is_root))).length ≤
      (page - 1) * page_size := by
    rw [(List.perm_insertionSort created_desc _).length_eq]
    exact h
  show ((List.insertionSort created_desc (s.filter (fun n => n.is_root))).drop
    ((page - 1) * page_size)).take page_size = []
  rw [List.drop_eq_nil_of_le hlen, List.take_nil]

theorem get_root_nodes_out_of_range_witness :
    ((demo_store.filter (fun n => n.is_root)).length ≤ (5 - 1) * 20) ∧
    ((get_root_nodes demo_store 5 20).1 = [] ∧
     (get_root_nodes demo_store 5 20).2 = (demo_store.filter (fun n => n.is_root)).length) :=
  ⟨by decide, get_root_nodes_out_of_range demo_store 5 20 (by decide)⟩

theorem create_node_snd_image (s : Store) (data : NodeCreate) (now : Nat) :
    ((create_node s data now).2).image_base64 = data.image_base64 := by
  cases h : data.parent_id <;> simp [create_node, h]

theorem generate_image_none_none (env : GenEnv) (p : Option ImageProvider)
    (k : Fin mock_images.length) :
    generate_image env p none none k = get_mock_image k := by
  unfold generate_image
  dsimp only
  split <;> rfl

/-- Claim C7: when every rendering provider call fails (both outcomes are
`none`), the generation flow still persists and returns a node whose
`image_base64` is the placeholder image — non-null, drawn from the fixed
mock list — and the flow terminates without an error path. -/
theorem render_fallback (s : Store) (req : GenerateImageRequest) (env : GenEnv)
    (stab bed : Option String) (k : Fin mock_images.length) (now : Nat)
    (h1 : stab = none) (h2 : bed = none) :
    ((generate_endpoint s req env stab bed k now).2).image_base64 = some (get_mock_image k) ∧
    ((generate_endpoint s req env stab bed k now).2).image_base64 ≠ none ∧
    get_mock_image k ∈ mock_images := by
  subst h1
  subst h2
  have himg : ((generate_endpoint s req env none none k now).2).image_base64 =
      some (get_mock_image k) := by
    unfold generate_endpoint
    dsimp only
    rw [create_node_snd_image]
    rw [generate_image_none_none]
  refine ⟨himg, ?_, ?_⟩
  · rw [himg]
    simp
  · exact List.get_mem _ _ _

theorem render_fallback_witness :
    ((none : Option String) = none ∧ (none : Option String) = none) ∧
    (((generate_endpoint [] { prompt := "x", spec_json := {} }
        { use_fake_data := false, image_provider := "aws_bedrock", aws_credentials := false }
        none none ⟨0, by decide⟩ 0).2).image_base64 =
      some (get_mock_image ⟨0, by decide⟩) ∧
     ((generate_endpoint [] { prompt := "x", spec_json := {} }
        { use_fake_data := false, image_provider := "aws_bedrock", aws_credentials := false }
        none none ⟨0, by decide⟩ 0).2).image_base64 ≠ none ∧
     get_mock_image ⟨0, by decide⟩ ∈ mock_images) :=
  ⟨⟨rfl, rfl⟩, render_fallback [] { prompt := "x", spec_json := {} }
    { use_fake_data := false, image_provider := "aws_bedrock", aws_credentials := false }
    none none ⟨0, by decide⟩ 0 rfl rfl⟩

theorem walk_up_none (s : Store) : ∀ fuel, walk_up s fuel none = [] := by
  intro fuel
  cases fuel <;> rfl

theorem chain_exists (s : Store) (hWF : WellFormedStore s) :
    ∀ pid : Nat, (∃ m ∈ s, m.id = pid) →
      ∃ l, AncestorChain s (some pid) l ∧ (∀ a ∈ l, a ∈ s ∧ a.id ≤ pid) ∧
        (l.map Node.id).Nodup := by
  intro pid
  induction pid using Nat.strong_induction_on with
  | _ pid ih =>
    intro hex
    obtain ⟨p, hp⟩ := get_node_of_mem_id hex
    have hpmem := get_node_mem hp
    have hpid := get_node_id hp
    cases hpp : p.parent_id with
    | none =>
      refine ⟨[p], AncestorChain.cons hp (by rw [hpp]; exact AncestorChain.nil), ?_, by simp⟩
      intro a ha
      rw [List.mem_singleton] at ha
      subst ha
      exact ⟨hpmem, le_of_eq hpid⟩
    | some q =>
      obtain ⟨hqlt, hqex⟩ := (hWF.2 p hpmem) q hpp
      have hqpid : q < pid := hpid ▸ hqlt
      obtain ⟨l, hch, hbound, hnd⟩ := ih q hqpid hqex
      refine ⟨p :: l, AncestorChain.cons hp (by rw [hpp]; exact hch), ?_, ?_⟩
      · intro a ha
        rcases List.mem_cons.mp ha with rfl | ha
        · exact ⟨hpmem, le_of_eq hpid⟩
        · obtain ⟨hm, hle⟩ := hbound a ha
          exact ⟨hm, le_trans hle (le_of_lt hqpid)⟩
      · rw [List.map_cons, List.nodup_cons]
        refine ⟨?_, hnd⟩
        intro hmem
        rw [List.mem_map] at hmem
        obtain ⟨a, ha, haid⟩ := hmem
        have h1 := (hbound a ha).2
        omega

theorem chain_walk {s : Store} {opid : Option Nat} {l : List Node}
    (h : AncestorChain s opid l) : ∀ fuel, l.length ≤ fuel → walk_up s fuel opid = l := by
  induction h with
  | nil =>
    intro fuel _
    exact walk_up_none s fuel
  | cons hp hch ih =>
    intro fuel hlen
    cases fuel with
    | zero => simp at hlen
    | succ f =>
      simp only [walk_up, hp]
      rw [ih f (by simpa using hlen)]

/-- Claim C8: on a well-formed store the lineage resolver's ancestor walk
terminates — fuel `s.length` already reaches the fixpoint, and any larger
fuel returns the same list — and the returned list is exactly the chain
obtained by following `parent_id` links upward one hop at a time until a
null `parent_id`, nearest ancestor first. -/
theorem lineage_ancestors_chain (s : Store) (hWF : WellFormedStore s) (x : Nat) (X : Node)
    (hx : get_node s x = some X) :
    AncestorChain s X.parent_id ((get_image_lineage s s.length x).ancestors) ∧
    (∀ fuel, s.length ≤ fuel →
      (get_image_lineage s fuel x).ancestors = (get_image_lineage s s.length x).ancestors) := by
  have hanc : ∀ fuel, (get_image_lineage s fuel x).ancestors = walk_up s fuel X.parent_id := by
    intro fuel
    simp [get_image_lineage, hx]
  cases hpp : X.parent_id with
  | none =>
    constructor
    · rw [hanc, hpp, walk_up_none]
      exact AncestorChain.nil
    · intro fuel _
      rw [hanc, hanc, hpp, walk_up_none, walk_up_none]
  | some q =>
    have hXmem := get_node_mem hx
    obtain ⟨_, hqex⟩ := (hWF.2 X hXmem) q hpp
    obtain ⟨l, hch, hbound, hnd⟩ := chain_exists s hWF q hqex
    have hlen : l.length ≤ s.length :=
      (List.subperm_of_subset (List.Nodup.of_map _ hnd) (fun a ha => (hbound a ha).1)).length_le
    constructor
    · rw [hanc, hpp, chain_walk hch s.length hlen]
      exact hch
    · intro fuel hf
      rw [hanc, hanc, hpp, chain_walk hch fuel (le_trans hlen hf), chain_walk hch s.length hlen]

theorem lineage_ancestors_chain_witness :
    (WellFormedStore demo_store ∧ get_node demo_store 3 = some (mk_node 3 false (some 2) 30)) ∧
    (AncestorChain demo_store (mk_node 3 false (some 2) 30).parent_id
       ((get_image_lineage demo_store demo_store.length 3).ancestors) ∧
     (∀ fuel, demo_store.length ≤ fuel →
       (get_image_lineage demo_store fuel 3).ancestors =
         (get_image_lineage demo_store demo_store.length 3).ancestors)) :=
  ⟨⟨by decide, by decide⟩,
   lineage_ancestors_chain demo_store (by decide) 3 (mk_node 3 false (some 2) 30) (by decide)⟩

theorem descendAt_mem {s : Store} {X : Node} (hX : X ∈ s) :
    ∀ {k : Nat} {n : Node}, DescendAt s X k n → n ∈ s := by
  intro k n h
  induction h with
  | refl => exact hX
  | step _ hn _ _ => exact hn

theorem descendAt_zero {s : Store} {X n : Node} (h : DescendAt s X 0 n) : n = X := by
  cases h
  rfl

theorem descendAt_succ {s : Store} {X n : Node} {k : Nat} (h : DescendAt s X (k + 1) n) :
    ∃ m, DescendAt s X k m ∧ n ∈ s ∧ n.parent_id = some m.id := by
  cases h with
  | step hm hn hp => exact ⟨_, hm, hn, hp⟩

theorem descendAt_id (s : Store)
    (hlt : ∀ n ∈ s, ∀ p, n.parent_id = some p → p < n.id) {X : Node} :
    ∀ {k : Nat} {n : Node}, DescendAt s X k n → X.id + k ≤ n.id ∨ k = 0 := by
  intro k n h
  induction h with
  | refl => right; rfl
  | @step k m n hm hn hp ih =>
    left
    have hplt : m.id < n.id := hlt n hn m.id hp
    rcases ih with hle | hk0
    · omega
    · subst hk0
      have hmX : m = X := descendAt_zero hm
      subst hmX
      omega

theorem descendAt_unique (s : Store) (hnd : (s.map Node.id).Nodup)
    (hlt : ∀ n ∈ s, ∀ p, n.parent_id = some p → p < n.id) {X : Node} (hX : X ∈ s) :
    ∀ {k j : Nat} {n : Node}, DescendAt s X k n → DescendAt s X j n → k = j := by
  intro k
  induction k with
  | zero =>
    intro j n h0 hj
    have hnX := descendAt_zero h0
    subst hnX
    cases j with
    | zero => rfl
    | succ j' =>
      exfalso
      rcases descendAt_id s hlt hj with hb | hz
      · omega
      · cases hz
  | succ k' ih =>
    intro j n hk hj
    obtain ⟨m1, hm1, hn1, hp1⟩ := descendAt_succ hk
    cases j with
    | zero =>
      exfalso
      have hnX := descendAt_zero hj
      subst hnX
      rcases descendAt_id s hlt hk with hb | hz
      · omega
      · cases hz
    | succ j' =>
      obtain ⟨m2, hm2, hn2, hp2⟩ := descendAt_succ hj
      have hm12 : m1 = m2 := by
        have hid : m1.id = m2.id := by
          rw [hp1] at hp2
          exact Option.some.inj hp2
        exact id_inj hnd (descendAt_mem hX hm1) (descendAt_mem hX hm2) hid
      subst hm12
      rw [ih hm1 hm2]

theorem mem_children_rows {s : Store} {pid : Nat} {n : Node} :
    n ∈ children_rows s pid ↔ n ∈ s ∧ n.parent_id = some pid := by
  simp [children_rows]

theorem descendAt_one_iff {s : Store} {X n : Node} :
    DescendAt s X 1 n ↔ n ∈ s ∧ n.parent_id = some X.id := by
  constructor
  · intro h
    obtain ⟨m, hm, hn, hp⟩ := descendAt_succ h
    rw [descendAt_zero hm] at hp
    exact ⟨hn, hp⟩
  · rintro ⟨hn, hp⟩
    exact DescendAt.step DescendAt.refl hn hp

theorem descendAt_two_iff {s : Store} {X n : Node} :
    DescendAt s X 2 n ↔
      ∃ m, (m ∈ s ∧ m.parent_id = some X.id) ∧ (n ∈ s ∧ n.parent_id = some m.id) := by
  constructor
  · intro h
    obtain ⟨m, hm, hn, hp⟩ := descendAt_succ h
    exact ⟨m, descendAt_one_iff.mp hm, hn, hp⟩
  · rintro ⟨m, hm1, hn, hp⟩
    exact DescendAt.step (descendAt_one_iff.mpr hm1) hn hp

theorem lineage_descendants_eq {s : Store} {fuel : Nat} {x : Nat} {X : Node}
    (hx : get_node s x = some X) :
    (get_image_lineage s fuel x).descendants =
      children_rows s x ++ (children_rows s x).flatMap (fun d => children_rows s d.id) := by
  simp [get_image_lineage, hx]

/-- Claim C1: for an existing node the lineage resolver's descendant list is
exactly the direct children followed by the direct children's own children
(two-hop expansion, direct children first), its members are precisely the
nodes at descent level one or two, and no node at descent level three or
deeper ever appears in it. -/
theorem lineage_descendants_two_hop (s : Store) (hWF : WellFormedStore s) (x : Nat) (X : Node)
    (hx : get_node s x = some X) (fuel : Nat) :
    (get_image_lineage s fuel x).descendants =
      children_rows s x ++ (children_rows s x).flatMap (fun d => children_rows s d.id) ∧
    (∀ n, n ∈ (get_image_lineage s fuel x).descendants ↔
      (DescendAt s X 1 n ∨ DescendAt s X 2 n)) ∧
    (∀ n k, DescendAt s X k n → 3 ≤ k → n ∉ (get_image_lineage s fuel x).descendants) := by
  have hXmem := get_node_mem hx
  have hXid := get_node_id hx
  have hlt : ∀ n ∈ s, ∀ p, n.parent_id = some p → p < n.id :=
    fun n hn p hp => ((hWF.2 n hn) p hp).1
  have heq : (get_image_lineage s fuel x).descendants =
      children_rows s x ++ (children_rows s x).flatMap (fun d => children_rows s d.id) :=
    lineage_descendants_eq hx
  have hmem : ∀ n, n ∈ (get_image_lineage s fuel x).descendants ↔
      (DescendAt s X 1 n ∨ DescendAt s X 2 n) := by
    intro n
    rw [heq, ← hXid]
    simp only [List.mem_append, List.mem_flatMap, mem_children_rows]
    rw [descendAt_one_iff, descendAt_two_iff]
  refine ⟨heq, hmem, ?_⟩
  intro n k hk h3 hmemn
  rcases (hmem n).mp hmemn with h1 | h2
  · have := descendAt_unique s hWF.1 hlt hXmem hk h1
    omega
  · have := descendAt_unique s hWF.1 hlt hXmem hk h2
    omega

theorem lineage_descendants_two_hop_witness :
    (WellFormedStore demo_store ∧ get_node demo_store 1 = some (mk_node 1 true none 10)) ∧
    ((get_image_lineage demo_store 0 1).descendants =
       children_rows demo_store 1 ++
         (children_rows demo_store 1).flatMap (fun d => children_rows demo_store d.id) ∧
     (∀ n, n ∈ (get_image_lineage demo_store 0 1).descendants ↔
       (DescendAt demo_store (mk_node 1 true none 10) 1 n ∨
        DescendAt demo_store (mk_node 1 true none 10) 2 n)) ∧
     (∀ n k, DescendAt demo_store (mk_node 1 true none 10) k n → 3 ≤ k →
       n ∉ (get_image_lineage demo_store 0 1).descendants)) :=
  ⟨⟨by decide, by decide⟩,
   lineage_descendants_two_hop demo_store (by decide) 1 (mk_node 1 true none 10) (by decide) 0⟩

theorem filter_above_lt (rows : List Node) (rank : Nat → Nat)
    (hrank : ∀ n ∈ rows, ∀ p, n.parent_id = some p → rank p < rank n.id)
    {c : Node} (hc : c ∈ rows) {pid : Nat} (hcp : c.parent_id = some pid) :
    (rows.filter (fun n => rank c.id < rank n.id)).length <
      (rows.filter (fun n => rank pid < rank n.id)).length := by
  have hlt : rank pid < rank c.id := hrank c hc pid hcp
  have hsubf : rows.filter (fun n => rank c.id < rank n.id) =
      (rows.filter (fun n => rank pid < rank n.id)).filter
        (fun n => rank c.id < rank n.id) := by
    rw [List.filter_filter]
    apply List.filter_congr
    intro a _
    by_cases h : rank c.id < rank a.id
    · simp [h, lt_trans hlt h]
    · simp [h]
  have hsub : (rows.filter (fun n => rank c.id < rank n.id)).Sublist
      (rows.filter (fun n => rank pid < rank n.id)) := by
    rw [hsubf]
    exact List.filter_sublist _
  refine Nat.lt_of_le_of_ne hsub.length_le ?_
  intro heq
  have hlists := hsub.eq_of_length heq
  have hcmem : c ∈ rows.filter (fun n => rank pid < rank n.id) :=
    List.mem_filter.mpr ⟨hc, by simp [hlt]⟩
  rw [← hlists] at hcmem
  have hcc := (List.mem_filter.mp hcmem).2
  simp at hcc

theorem build_tree_stable_aux (rows : List Node) (rank : Nat → Nat)
    (hrank : ∀ n ∈ rows, ∀ p, n.parent_id = some p → rank p < rank n.id) :
    ∀ m : Nat, ∀ pid, (rows.filter (fun n => rank pid < rank n.id)).length = m →
      ∀ fuel, m < fuel → build_tree rows fuel pid = build_tree rows (m + 1) pid := by
  intro m
  induction m using Nat.strong_induction_on with
  | _ m ih =>
    intro pid hm fuel hfuel
    cases fuel with
    | zero => omega
    | succ f =>
      rw [build_tree, build_tree]
      apply List.map_congr_left
      intro c hcmem
      have hc := List.mem_filter.mp hcmem
      have hcrows := hc.1
      have hcp : c.parent_id = some pid := by simpa using hc.2
      have hltc := filter_above_lt rows rank hrank hcrows hcp
      rw [hm] at hltc
      have h1 : build_tree rows f c.id =
          build_tree rows ((rows.filter (fun n => rank c.id < rank n.id)).length + 1) c.id :=
        ih _ hltc c.id rfl f (by omega)
      have h2 : build_tree rows m c.id =
          build_tree rows ((rows.filter (fun n => rank c.id < rank n.id)).length + 1) c.id :=
        ih _ hltc c.id rfl m (by omega)
      rw [h1, h2]

/-- Claim C10: the row-to-tree reassembly recursion of the Tree Materializer
is total on every finite row set whose parent/child relation is acyclic.
Acyclicity of the parent-functional relation on a finite row set is
expressed by a rank function strictly increasing from parent id to child row
(such a rank exists exactly when the relation has no cycle; in the
repository's stores the identity qualifies because a parent row always
predates its children).  Termination is expressed through the fuel-indexed
approximations of the unbounded Python recursion: beyond the bound given by
the number of rows ranked above the start id, all approximations coincide,
so the recursion reaches a fixed value in finitely many steps from every
start id. -/
theorem build_tree_terminates (rows : List Node) (rank : Nat → Nat)
    (hrank : ∀ n ∈ rows, ∀ p, n.parent_id = some p → rank p < rank n.id)
    (pid : Nat) (f1 f2 : Nat)
    (h1 : (rows.filter (fun n => rank pid < rank n.id)).length < f1)
    (h2 : (rows.filter (fun n => rank pid < rank n.id)).length < f2) :
    build_tree rows f1 pid = build_tree rows f2 pid := by
  rw [build_tree_stable_aux rows rank hrank _ pid rfl f1 h1,
      build_tree_stable_aux rows rank hrank _ pid rfl f2 h2]

theorem build_tree_terminates_witness :
    ((∀ n ∈ demo_store, ∀ p, n.parent_id = some p → p < n.id) ∧
     (demo_store.filter (fun n => 1 < n.id)).length < 4 ∧
     (demo_store.filter (fun n => 1 < n.id)).length < 9) ∧
    build_tree demo_store 4 1 = build_tree demo_store 9 1 :=
  ⟨⟨fun n hn p hp => (((by decide : WellFormedStore demo_store).2 n hn) p hp).1,
    by decide, by decide⟩,
   build_tree_terminates demo_store (fun i => i)
     (fun n hn p hp => (((by decide : WellFormedStore demo_store).2 n hn) p hp).1)
     1 4 9 (by decide) (by decide)⟩

theorem mem_cte_aux {s : Store} {x : Nat} :
    ∀ (f k : Nat) (a : Node),
      a ∈ cte_aux s f (cte_frontier s x k) ↔ ∃ j, j < f ∧ a ∈ cte_frontier s x (k + j) := by
  intro f
  induction f with
  | zero =>
    intro k a
    simp [cte_aux]
  | succ f ih =>
    intro k a
    rw [cte_aux, List.mem_append]
    constructor
    · rintro (h | h)
      · exact ⟨0, by omega, by simpa using h⟩
      · obtain ⟨j, hj, hmem⟩ := (ih (k + 1) a).mp h
        exact ⟨j + 1, by omega, by rw [show k + (j + 1) = (k + 1) + j by omega]; exact hmem⟩
    · rintro ⟨j, hj, hmem⟩
      cases j with
      | zero =>
        left
        simpa using hmem
      | succ j' =>
        right
        exact (ih (k + 1) a).mpr ⟨j', by omega,
          by rw [show (k + 1) + j' = k + (j' + 1) by omega]; exact hmem⟩

theorem frontier_mem_iff {s : Store} {x : Nat} {X : Node}
    (hnd : (s.map Node.id).Nodup) (hx : get_node s x = some X) :
    ∀ (k : Nat) (a : Node), a ∈ cte_frontier s x k ↔ (a ∈ s ∧ DescendAt s X k a) := by
  intro k
  induction k with
  | zero =>
    intro a
    simp only [cte_frontier, List.mem_filter]
    constructor
    · rintro ⟨ha, hid⟩
      have haid : a.id = x := by simpa using hid
      have haX : a = X := id_inj hnd ha (get_node_mem hx) (by rw [haid, get_node_id hx])
      exact ⟨ha, haX ▸ DescendAt.refl⟩
    · rintro ⟨ha, hd⟩
      have := descendAt_zero hd
      subst this
      exact ⟨ha, by simp [get_node_id hx]⟩
  | succ k ih =>
    intro a
    show a ∈ cte_step s (cte_frontier s x k) ↔ _
    simp only [cte_step, List.mem_flatMap, mem_children_rows]
    constructor
    · rintro ⟨d, hd, ha, hp⟩
      have hdc := (ih d).mp hd
      exact ⟨ha, DescendAt.step hdc.2 ha hp⟩
    · rintro ⟨ha, hd⟩
      obtain ⟨m, hm, _, hp⟩ := descendAt_succ hd
      have hmmem : m ∈ s := descendAt_mem (get_node_mem hx) hm
      exact ⟨m, (ih m).mpr ⟨hmmem, hm⟩, ha, hp⟩

theorem frontier_nodup {s : Store} {x : Nat}
    (hnd : (s.map Node.id).Nodup) :
    ∀ k : Nat, ((cte_frontier s x k).map Node.id).Nodup := by
  intro k
  induction k with
  | zero => exact List.Nodup.sublist ((List.filter_sublist s).map Node.id) hnd
  | succ k ih =>
    show (((cte_step s (cte_frontier s x k))).map Node.id).Nodup
    rw [cte_step, List.map_flatMap, List.nodup_flatMap]
    constructor
    · intro d _
      exact List.Nodup.sublist ((List.filter_sublist s).map Node.id) hnd
    · have hpw : List.Pairwise (fun a b => a.id ≠ b.id) (cte_frontier s x k) :=
        List.pairwise_map.mp ih
      apply hpw.imp
      intro a b hab
      simp only [Function.onFun]
      intro i hia hib
      rw [List.mem_map] at hia hib
      obtain ⟨na, hna, hnai⟩ := hia
      obtain ⟨nb, hnb, hnbi⟩ := hib
      have hna' := mem_children_rows.mp hna
      have hnb' := mem_children_rows.mp hnb
      have hnab : na = nb := id_inj hnd hna'.1 hnb'.1 (by rw [hnai, hnbi])
      subst hnab
      rw [hna'.2] at hnb'
      exact hab (Option.some.inj hnb'.2)

theorem descendAt_le_length {s : Store} {X : Node} (hX : X ∈ s)
    (hnd : (s.map Node.id).Nodup)
    (hlt : ∀ n ∈ s, ∀ p, n.parent_id = some p → p < n.id) :
    ∀ {k : Nat} {n : Node}, DescendAt s X k n → k < s.length := by
  have hext : ∀ {k : Nat} {n : Node}, DescendAt s X k n →
      ∃ l : List Node, l.length = k + 1 ∧ (l.map Node.id).Nodup ∧
        (∀ a ∈ l, a ∈ s ∧ a.id ≤ n.id) := by
    intro k n h
    induction h with
    | refl =>
      refine ⟨[X], rfl, by simp, ?_⟩
      intro a ha
      rw [List.mem_singleton] at ha
      subst ha
      exact ⟨hX, le_refl _⟩
    | @step k m n hm hn hp ih =>
      obtain ⟨l, hlen, hnd', hbound⟩ := ih
      have hmn : m.id < n.id := hlt n hn m.id hp
      refine ⟨n :: l, by simp [hlen], ?_, ?_⟩
      · rw [List.map_cons, List.nodup_cons]
        refine ⟨?_, hnd'⟩
        intro hmem
        rw [List.mem_map] at hmem
        obtain ⟨a, ha, haid⟩ := hmem
        have := (hbound a ha).2
        omega
      · intro a ha
        rcases List.mem_cons.mp ha with rfl | ha
        · exact ⟨hn, le_refl _⟩
        · obtain ⟨h1, h2⟩ := hbound a ha
          exact ⟨h1, by omega⟩
  intro k n h
  obtain ⟨l, hlen, hnd', hbound⟩ := hext h
  have hle : l.length ≤ s.length :=
    (List.subperm_of_subset (List.Nodup.of_map _ hnd') (fun a ha => (hbound a ha).1)).length_le
  omega

theorem cte_mem_iff {s : Store} {x : Nat} {X : Node}
    (hWF : WellFormedStore s) (hx : get_node s x = some X) :
    ∀ a, a ∈ cte_descendants s x ↔ (a ∈ s ∧ ∃ k, DescendAt s X k a) := by
  have hlt : ∀ n ∈ s, ∀ p, n.parent_id = some p → p < n.id :=
    fun n hn p hp => ((hWF.2 n hn) p hp).1
  intro a
  rw [cte_descendants, show s.filter (fun n => n.id == x) = cte_frontier s x 0 from rfl,
    mem_cte_aux]
  constructor
  · rintro ⟨j, _, hmem⟩
    have hj := (frontier_mem_iff hWF.1 hx j a).mp (by simpa using hmem)
    exact ⟨hj.1, j, hj.2⟩
  · rintro ⟨ha, k, hk⟩
    have hbound := descendAt_le_length (get_node_mem hx) hWF.1 hlt hk
    exact ⟨k, by omega, by simpa using (frontier_mem_iff hWF.1 hx k a).mpr ⟨ha, hk⟩⟩

theorem cte_nodup {s : Store} {x : Nat} {X : Node}
    (hWF : WellFormedStore s) (hx : get_node s x = some X) :
    ((cte_descendants s x).map Node.id).Nodup := by
  have hlt : ∀ n ∈ s, ∀ p, n.parent_id = some p → p < n.id :=
    fun n hn p hp => ((hWF.2 n hn) p hp).1
  have hgen : ∀ (f k : Nat), ((cte_aux s f (cte_frontier s x k)).map Node.id).Nodup := by
    intro f
    induction f with
    | zero =>
      intro k
      simp [cte_aux]
    | succ f ih =>
      intro k
      rw [cte_aux, List.map_append, List.nodup_append]
      refine ⟨frontier_nodup hWF.1 k, ih (k + 1), ?_⟩
      intro i hi1 hi2
      rw [List.mem_map] at hi1 hi2
      obtain ⟨a, ha, hai⟩ := hi1
      obtain ⟨b, hb, hbi⟩ := hi2
      obtain ⟨j, _, hbf⟩ := (mem_cte_aux f (k + 1) b).mp hb
      have hak := (frontier_mem_iff hWF.1 hx k a).mp ha
      have hbk := (frontier_mem_iff hWF.1 hx ((k + 1) + j) b).mp hbf
      have hab : a = b := id_inj hWF.1 hak.1 hbk.1 (by rw [hai, hbi])
      subst hab
      have := descendAt_unique s hWF.1 hlt (get_node_mem hx) hak.2 hbk.2
      omega
  exact hgen (s.length + 1) 0

theorem transDesc_iff_descendAt {s : Store} {x : Nat} {X : Node}
    (hx : get_node s x = some X) :
    ∀ {n : Node}, TransDesc s x n ↔ ∃ k, DescendAt s X (k + 1) n := by
  have hXid := get_node_id hx
  intro n
  constructor
  · intro h
    induction h with
    | base hn hp =>
      exact ⟨0, DescendAt.step DescendAt.refl hn (by rw [hXid]; exact hp)⟩
    | @step m n hm hn hp ih =>
      obtain ⟨k, hk⟩ := ih
      exact ⟨k + 1, DescendAt.step hk hn hp⟩
  · rintro ⟨k, hk⟩
    induction k generalizing n with
    | zero =>
      obtain ⟨m, hm, hn, hp⟩ := descendAt_succ hk
      rw [descendAt_zero hm] at hp
      exact TransDesc.base hn (by rw [← hXid]; exact hp)
    | succ k ih =>
      obtain ⟨m, hm, hn, hp⟩ := descendAt_succ hk
      exact TransDesc.step (ih hm) hn hp

theorem cte_mem_iff_trans {s : Store} {x : Nat} {X : Node}
    (hWF : WellFormedStore s) (hx : get_node s x = some X) :
    ∀ a, a ∈ cte_descendants s x ↔ (a = X ∨ TransDesc s x a) := by
  intro a
  rw [cte_mem_iff hWF hx]
  constructor
  · rintro ⟨ha, k, hk⟩
    cases k with
    | zero =>
      left
      exact descendAt_zero hk
    | succ k =>
      right
      exact (transDesc_iff_descendAt hx).mpr ⟨k, hk⟩
  · rintro (rfl | h)
    · exact ⟨get_node_mem hx, 0, DescendAt.refl⟩
    · obtain ⟨k, hk⟩ := (transDesc_iff_descendAt hx).mp h
      exact ⟨descendAt_mem (get_node_mem hx) hk, k + 1, hk⟩

theorem tree_flat_list_eq (L : List NodeTree) : tree_flat_list L = L.flatMap tree_flat := by
  induction L with
  | nil => rfl
  | cons t ts ih => simp [tree_flat_list, ih]

theorem transDesc_mem {rows : List Node} {q : Nat} {n : Node}
    (h : TransDesc rows q n) : n ∈ rows := by
  cases h with
  | base hn _ => exact hn
  | step _ hn _ => exact hn

theorem transDesc_lt {rows : List Node}
    (hlt : ∀ n ∈ rows, ∀ p, n.parent_id = some p → p < n.id) :
    ∀ {q : Nat} {n : Node}, TransDesc rows q n → q < n.id := by
  intro q n h
  induction h with
  | base hn hp => exact hlt _ hn q hp
  | @step m n hm hn hp ih => exact lt_trans ih (hlt n hn m.id hp)

theorem transDesc_parent_low {rows : List Node}
    (hlt : ∀ n ∈ rows, ∀ p, n.parent_id = some p → p < n.id)
    {pid q : Nat} {n : Node}
    (hp : n.parent_id = some pid) (hq : TransDesc rows q n) (hgt : pid < q) : False := by
  cases hq with
  | base hn hp' =>
    rw [hp] at hp'
    have := Option.some.inj hp'
    omega
  | @step m n hm hn hp' =>
    rw [hp] at hp'
    have hmid : m.id = pid := (Option.some.inj hp').symm
    have := transDesc_lt hlt hm
    omega

theorem transDesc_trans {rows : List Node} {pid : Nat} {c n : Node}
    (hc : TransDesc rows pid c) (h : TransDesc rows c.id n) : TransDesc rows pid n := by
  induction h with
  | base hn hp => exact TransDesc.step hc hn hp
  | step _ hn hp ih => exact TransDesc.step ih hn hp

theorem branch_exists {rows : List Node} {pid : Nat} {n : Node}
    (h : TransDesc rows pid n) :
    ∃ c, (c ∈ rows ∧ c.parent_id = some pid) ∧ (n = c ∨ TransDesc rows c.id n) := by
  induction h with
  | base hn hp => exact ⟨_, ⟨hn, hp⟩, Or.inl rfl⟩
  | @step m n hm hn hp ih =>
    obtain ⟨c, hc, hbranch⟩ := ih
    refine ⟨c, hc, Or.inr ?_⟩
    rcases hbranch with rfl | htd
    · exact TransDesc.base hn hp
    · exact TransDesc.step htd hn hp

theorem branch_unique {rows : List Node} (hnd : (rows.map Node.id).Nodup)
    (hlt : ∀ n ∈ rows, ∀ p, n.parent_id = some p → p < n.id) {pid : Nat} :
    ∀ N : Nat, ∀ n : Node, n.id ≤ N → ∀ c1 c2 : Node,
      c1 ∈ rows → c1.parent_id = some pid → c2 ∈ rows → c2.parent_id = some pid →
      (n = c1 ∨ TransDesc rows c1.id n) → (n = c2 ∨ TransDesc rows c2.id n) → c1 = c2 := by
  intro N
  induction N using Nat.strong_induction_on with
  | _ N ih =>
    intro n hN c1 c2 hc1 hp1 hc2 hp2 hb1 hb2
    have hpl1 : pid < c1.id := hlt c1 hc1 pid hp1
    have hpl2 : pid < c2.id := hlt c2 hc2 pid hp2
    rcases hb1 with rfl | ht1
    · rcases hb2 with rfl | ht2
      · rfl
      · exact (transDesc_parent_low hlt hp1 ht2 hpl2).elim
    · rcases hb2 with rfl | ht2
      · exact (transDesc_parent_low hlt hp2 ht1 hpl1).elim
      · cases ht1 with
        | base hn1 hp1' =>
          cases ht2 with
          | base hn2 hp2' =>
            have hid : c1.id = c2.id := by
              rw [hp1'] at hp2'
              exact Option.some.inj hp2'
            exact id_inj hnd hc1 hc2 hid
          | @step m2 _ hm2 hn2 hp2' =>
            have hm2mem : m2 ∈ rows := transDesc_mem hm2
            have hm2c1 : m2 = c1 := by
              apply id_inj hnd hm2mem hc1
              rw [hp1'] at hp2'
              exact (Option.some.inj hp2').symm
            subst hm2c1
            exact (transDesc_parent_low hlt hp1 hm2 hpl2).elim
        | @step m1 _ hm1 hn1 hp1' =>
          cases ht2 with
          | base hn2 hp2' =>
            have hm1mem : m1 ∈ rows := transDesc_mem hm1
            have hm1c2 : m1 = c2 := by
              apply id_inj hnd hm1mem hc2
              rw [hp2'] at hp1'
              exact (Option.some.inj hp1').symm
            subst hm1c2
            exact (transDesc_parent_low hlt hp2 hm1 hpl1).elim
          | @step m2 _ hm2 hn2 hp2' =>
            have hm1mem : m1 ∈ rows := transDesc_mem hm1
            have hm2mem : m2 ∈ rows := transDesc_mem hm2
            have hm12 : m1 = m2 := by
              apply id_inj hnd hm1mem hm2mem
              rw [hp1'] at hp2'
              exact Option.some.inj hp2'
            subst hm12
            have hml : m1.id < n.id := hlt n hn1 m1.id hp1'
            exact ih m1.id (by omega) m1 (le_refl _) c1 c2 hc1 hp1 hc2 hp2
              (Or.inr hm1) (Or.inr hm2)

theorem build_tree_flat_mem {rows : List Node} :
    ∀ (fuel pid : Nat) (a : Node), a ∈ tree_flat_list (build_tree rows fuel pid) →
      a ∈ rows ∧ TransDesc rows pid a := by
  intro fuel
  induction fuel with
  | zero =>
    intro pid a h
    simp [build_tree, tree_flat_list] at h
  | succ f ih =>
    intro pid a h
    rw [build_tree, tree_flat_list_eq, List.mem_flatMap] at h
    obtain ⟨t, ht, hat⟩ := h
    rw [List.mem_map] at ht
    obtain ⟨c, hcmem, rfl⟩ := ht
    have hc := List.mem_filter.mp hcmem
    have hcp : c.parent_id = some pid := by simpa using hc.2
    rw [tree_flat] at hat
    rcases List.mem_cons.mp hat with rfl | hat
    · exact ⟨hc.1, TransDesc.base hc.1 hcp⟩
    · obtain ⟨harows, htd⟩ := ih c.id a hat
      exact ⟨harows, transDesc_trans (TransDesc.base hc.1 hcp) htd⟩

theorem build_tree_wp {rows : List Node} :
    ∀ (fuel pid : Nat), ∀ t ∈ build_tree rows fuel pid,
      (NodeTree.node t).parent_id = some pid ∧ WellParented t := by
  intro fuel
  induction fuel with
  | zero =>
    intro pid t ht
    simp [build_tree] at ht
  | succ f ih =>
    intro pid t ht
    rw [build_tree, List.mem_map] at ht
    obtain ⟨c, hcmem, rfl⟩ := ht
    have hc := List.mem_filter.mp hcmem
    refine ⟨by simpa using hc.2, ?_⟩
    exact WellParented.mk (fun c' hc' => (ih c.id c' hc').1) (fun c' hc' => (ih c.id c' hc').2)

theorem sum_map_single (g : Node → Nat) (c : Node) :
    ∀ l : List Node, l.Nodup → c ∈ l → g c = 1 → (∀ d ∈ l, d ≠ c → g d = 0) →
      (l.map g).sum = 1 := by
  intro l
  induction l with
  | nil =>
    intro _ hc
    cases hc
  | cons d l ih =>
    intro hnd hc hgc hother
    rw [List.map_cons, List.sum_cons]
    rcases List.mem_cons.mp hc with rfl | hc'
    · rw [hgc]
      have hzero : ∀ e ∈ l, g e = 0 := by
        intro e he
        apply hother e (List.mem_cons_of_mem _ he)
        intro hec
        subst hec
        exact (List.nodup_cons.mp hnd).1 he
      have hsum : (l.map g).sum = 0 := by
        apply List.sum_eq_zero
        intro y hy
        rw [List.mem_map] at hy
        obtain ⟨e, he, rfl⟩ := hy
        exact hzero e he
      omega
    · have hd0 : g d = 0 := by
        apply hother d (List.mem_cons_self _ _)
        intro hdc
        subst hdc
        exact (List.nodup_cons.mp hnd).1 hc'
      rw [hd0]
      have := ih (List.nodup_cons.mp hnd).2 hc' hgc
        (fun e he hec => hother e (List.mem_cons_of_mem _ he) hec)
      omega

theorem filter_above_lt_id {rows : List Node}
    (hlt : ∀ n ∈ rows, ∀ p, n.parent_id = some p → p < n.id)
    {c : Node} (hc : c ∈ rows) {pid : Nat} (hcp : c.parent_id = some pid) :
    (rows.filter (fun n => c.id < n.id)).length <
      (rows.filter (fun n => pid < n.id)).length :=
  filter_above_lt rows (fun i => i) hlt hc hcp

theorem build_tree_count {rows : List Node} (hnd : (rows.map Node.id).Nodup)
    (hlt : ∀ n ∈ rows, ∀ p, n.parent_id = some p → p < n.id) :
    ∀ m pid, (rows.filter (fun n => pid < n.id)).length = m →
      ∀ fuel, m < fuel → ∀ a, TransDesc rows pid a →
        (tree_flat_list (build_tree rows fuel pid)).count a = 1 := by
  intro m
  induction m using Nat.strong_induction_on with
  | _ m ih =>
    intro pid hm fuel hfuel a ha
    cases fuel with
    | zero => omega
    | succ f =>
      rw [build_tree, tree_flat_list_eq, List.count_flatMap, List.map_map]
      obtain ⟨c, ⟨hcrows, hcp⟩, hbranch⟩ := branch_exists ha
      have hcmem : c ∈ rows.filter (fun n => n.parent_id == some pid) :=
        List.mem_filter.mpr ⟨hcrows, by simp [hcp]⟩
      have hchildnd : (rows.filter (fun n => n.parent_id == some pid)).Nodup :=
        List.Nodup.sublist (List.filter_sublist _) (List.Nodup.of_map _ hnd)
      apply sum_map_single _ c _ hchildnd hcmem
      · show (tree_flat (NodeTree.mk c (build_tree rows f c.id))).count a = 1
        rw [tree_flat]
        rcases hbranch with rfl | htd
        · rw [List.count_cons]
          have hnot : a ∉ tree_flat_list (build_tree rows f a.id) := by
            intro hmem
            have htd' := (build_tree_flat_mem f a.id a hmem).2
            have := transDesc_lt hlt htd'
            omega
          rw [List.count_eq_zero.mpr hnot]
          simp
        · rw [List.count_cons]
          have hlt_ca : c.id < a.id := transDesc_lt hlt htd
          have hca : ¬((c == a) = true) := by
            intro h
            have : c = a := by simpa using h
            subst this
            omega
          rw [if_neg hca, Nat.add_zero]
          have hmc := filter_above_lt_id hlt hcrows hcp
          rw [hm] at hmc
          exact ih _ hmc c.id rfl f (by omega) a htd
      · intro d hd hdc
        have hd' := List.mem_filter.mp hd
        have hdp : d.parent_id = some pid := by simpa using hd'.2
        show (tree_flat (NodeTree.mk d (build_tree rows f d.id))).count a = 0
        rw [tree_flat, List.count_cons]
        have hne : ¬((d == a) = true) := by
          intro h
          have hda : d = a := by simpa using h
          subst hda
          exact hdc (branch_unique hnd hlt d.id d (le_refl _) d c hd'.1 hdp hcrows hcp
            (Or.inl rfl) hbranch)
        have hzero : a ∉ tree_flat_list (build_tree rows f d.id) := by
          intro hmem
          have htda := (build_tree_flat_mem f d.id a hmem).2
          exact hdc (branch_unique hnd hlt a.id a (le_refl _) d c hd'.1 hdp hcrows hcp
            (Or.inr htda) hbranch)
        rw [List.count_eq_zero.mpr hzero, if_neg hne]

theorem transDesc_cte_iff {s : Store} {x : Nat} {X : Node}
    (hWF : WellFormedStore s) (hx : get_node s x = some X) :
    ∀ {n : Node}, TransDesc (cte_descendants s x) x n ↔ TransDesc s x n := by
  have hsub : ∀ a ∈ cte_descendants s x, a ∈ s :=
    fun a ha => ((cte_mem_iff hWF hx a).mp ha).1
  intro n
  constructor
  · intro h
    induction h with
    | base hn hp => exact TransDesc.base (hsub _ hn) hp
    | step _ hn hp ih => exact TransDesc.step ih (hsub _ hn) hp
  · intro h
    induction h with
    | base hn hp =>
      have hmem : _ ∈ cte_descendants s x :=
        (cte_mem_iff_trans hWF hx _).mpr (Or.inr (TransDesc.base hn hp))
      exact TransDesc.base hmem hp
    | @step m n hm hn hp ih =>
      have hmem : n ∈ cte_descendants s x :=
        (cte_mem_iff_trans hWF hx n).mpr (Or.inr (TransDesc.step hm hn hp))
      exact TransDesc.step ih hmem hp

/-- Claim C2: for an existing node the Tree Materializer returns a nested
tree of unbounded depth rooted at that node, in which every transitive
descendant appears exactly once (as does the root), every child subtree
hangs under the row whose id its `parent_id` names, nothing else appears,
and a node with no descendants yields just itself with an empty child
sequence. -/
theorem get_node_tree_spec (s : Store) (hWF : WellFormedStore s) (x : Nat) (X : Node)
    (hx : get_node s x = some X) :
    ∃ t, get_node_tree s x = some t ∧
      NodeTree.node t = X ∧
      WellParented t ∧
      (∀ n, n ∈ tree_flat t ↔ (n = X ∨ TransDesc s x n)) ∧
      (tree_flat t).count X = 1 ∧
      (∀ n, TransDesc s x n → (tree_flat t).count n = 1) ∧
      ((∀ n ∈ s, ¬n.parent_id = some x) → t = NodeTree.mk X []) := by
  have hXid := get_node_id hx
  have hXmem := get_node_mem hx
  have hlt_s : ∀ n ∈ s, ∀ p, n.parent_id = some p → p < n.id :=
    fun n hn p hp => ((hWF.2 n hn) p hp).1
  have hnd_r : ((cte_descendants s x).map Node.id).Nodup := cte_nodup hWF hx
  have hsub_r : ∀ a ∈ cte_descendants s x, a ∈ s :=
    fun a ha => ((cte_mem_iff hWF hx a).mp ha).1
  have hlt_r : ∀ n ∈ cte_descendants s x, ∀ p, n.parent_id = some p → p < n.id :=
    fun n hn p hp => hlt_s n (hsub_r n hn) p hp
  have hXrows : X ∈ cte_descendants s x := (cte_mem_iff_trans hWF hx X).mpr (Or.inl rfl)
  obtain ⟨r, hr⟩ := @get_node_of_mem_id (cte_descendants s x) x ⟨X, hXrows, hXid⟩
  have hrX : r = X := by
    apply id_inj hWF.1 (hsub_r r (get_node_mem hr)) hXmem
    rw [get_node_id hr, ← hXid]
  subst hrX
  simp only [get_node] at hr
  have htree : get_node_tree s x = some (NodeTree.mk r
      (build_tree (cte_descendants s x) ((cte_descendants s x).length + 1) x)) := by
    simp only [get_node_tree, hx, hr]
  have hcount_r : ∀ n, TransDesc (cte_descendants s x) x n →
      (tree_flat_list (build_tree (cte_descendants s x)
        ((cte_descendants s x).length + 1) x)).count n = 1 :=
    fun n htd => build_tree_count hnd_r hlt_r _ x rfl _
      (Nat.lt_succ_of_le (List.length_filter_le _ _)) n htd
  have hflatmem : ∀ n, n ∈ tree_flat_list (build_tree (cte_descendants s x)
      ((cte_descendants s x).length + 1) x) ↔ TransDesc (cte_descendants s x) x n := by
    intro n
    constructor
    · exact fun h => (build_tree_flat_mem _ _ n h).2
    · intro htd
      have h1 := hcount_r n htd
      have h0 : 0 < (tree_flat_list (build_tree (cte_descendants s x)
          ((cte_descendants s x).length + 1) x)).count n := by omega
      exact List.count_pos_iff.mp h0
  have hXnot : r ∉ tree_flat_list (build_tree (cte_descendants s x)
      ((cte_descendants s x).length + 1) x) := by
    intro h
    have := transDesc_lt hlt_r ((hflatmem r).mp h)
    omega
  refine ⟨_, htree, rfl, ?_, ?_, ?_, ?_, ?_⟩
  · exact WellParented.mk
      (fun c hc => by rw [hXid]; exact (build_tree_wp _ _ c hc).1)
      (fun c hc => (build_tree_wp _ _ c hc).2)
  · intro n
    rw [tree_flat, List.mem_cons, hflatmem, transDesc_cte_iff hWF hx]
  · rw [tree_flat, List.count_cons, List.count_eq_zero.mpr hXnot]
    simp
  · intro n htd
    have htd_r := (transDesc_cte_iff hWF hx).mpr htd
    have hnX : ¬((r == n) = true) := by
      intro h
      have hrn : r = n := by simpa using h
      have hlt' := transDesc_lt hlt_s htd
      rw [← hrn] at hlt'
      omega
    rw [tree_flat, List.count_cons, if_neg hnX, Nat.add_zero]
    exact hcount_r n htd_r
  · intro hleaf
    have hfilter : (cte_descendants s x).filter (fun n => n.parent_id == some x) = [] := by
      rw [List.filter_eq_nil_iff]
      intro a ha h
      exact hleaf a (hsub_r a ha) (by simpa using h)
    rw [build_tree, hfilter]
    rfl

theorem get_node_tree_spec_witness :
    (WellFormedStore demo_store ∧ get_node demo_store 1 = some (mk_node 1 true none 10)) ∧
    (∃ t, get_node_tree demo_store 1 = some t ∧
      NodeTree.node t = mk_node 1 true none 10 ∧
      WellParented t ∧
      (∀ n, n ∈ tree_flat t ↔ (n = mk_node 1 true none 10 ∨ TransDesc demo_store 1 n)) ∧
      (tree_flat t).count (mk_node 1 true none 10) = 1 ∧
      (∀ n, TransDesc demo_store 1 n → (tree_flat t).count n = 1) ∧
      ((∀ n ∈ demo_store, ¬n.parent_id = some 1) →
        t = NodeTree.mk (mk_node 1 true none 10) [])) :=
  ⟨⟨by decide, by decide⟩,
   get_node_tree_spec demo_store (by decide) 1 (mk_node 1 true none 10) (by decide)⟩
